import Mathlib

/-!
# Verification of the ntuple field engine (RFieldBase and friends)

A shallow embedding of the field engine found in `RField.hxx`: the object-to-column
mapper of the columnar event-data storage system.  Pure computations (trait
arithmetic, value sizes) are embedded as Lean functions on `Nat`; effectful
operations (reads, appends, bulk reads) are embedded as functions that return an
explicit trace of the column operations they perform, so that statements such as
"the fast path performs a single principal-column read and invokes no callback"
become statements about the produced trace.  Parts of the implementation that live
in the out-of-line translation unit (`RFieldBase.cxx`) are modelled from the
specification and marked as such in their doc comments.
-/

namespace RFieldEngine

/-! ## Traits bitset

`RFieldBase` trait constants, from the source:
`kTraitTriviallyConstructible = 0x01`, `kTraitTriviallyDestructible = 0x02`,
`kTraitMappable = 0x04`, `kTraitTrivialType = 0x01 | 0x02`. -/

def kTraitTriviallyConstructible : Nat := 0x01

def kTraitTriviallyDestructible : Nat := 0x02

def kTraitMappable : Nat := 0x04

def kTraitTrivialType : Nat := Nat.lor kTraitTriviallyConstructible kTraitTriviallyDestructible

/-- C++ truthiness of `fTraits & kTrait...`: the masked bits are non-zero. -/
def hasTrait (traits k : Nat) : Bool := Nat.land traits k != 0

/-! ## Read path (`RFieldBase::Read`, header lines 485-509)

The effect of a `Read` call is modelled as the list of operations it performs.
`target` is the destination pointer `to`, modelled as an address (`Nat`).
Callbacks are identified by the registration ids stored in `fReadCallbacks`. -/

/-- One observable step of `RFieldBase::Read`. -/
inductive ReadEvent where
  /-- `fPrincipalColumn->Read(index, to)` -/
  | principalColumnRead (target : Nat)
  /-- `ReadGlobalImpl(globalIndex, to)` / `ReadInClusterImpl(clusterIndex, to)` -/
  | readImpl (target : Nat)
  /-- one invocation `func(target)` from `InvokeReadCallbacks` -/
  | callback (id : Nat) (target : Nat)
  deriving DecidableEq, Repr

/-- The part of the `RFieldBase` state that the read path consults:
`fTraits`, `fIsSimple` and `fReadCallbacks` (in registration order). -/
structure ReadField where
  fTraits : Nat
  fIsSimple : Bool
  fReadCallbacks : List Nat
  deriving DecidableEq, Repr

/-- `RFieldBase::InvokeReadCallbacks`: `for (const auto &func : fReadCallbacks) func(target);` -/
def InvokeReadCallbacks (f : ReadField) (target : Nat) : List ReadEvent :=
  f.fReadCallbacks.map (fun id => ReadEvent.callback id target)

/-- `RFieldBase::Read(index, to)`: fast path for the simple trait, otherwise the
mappable column read or the recursive impl, followed by the callback dispatch
guarded by `!fReadCallbacks.empty()`. -/
def ReadField.Read (f : ReadField) (target : Nat) : List ReadEvent :=
  if f.fIsSimple then
    [ReadEvent.principalColumnRead target]
  else
    (if hasTrait f.fTraits kTraitMappable then
      [ReadEvent.principalColumnRead target]
    else
      [ReadEvent.readImpl target])
    ++ (if f.fReadCallbacks.isEmpty then [] else InvokeReadCallbacks f target)

/-- Modelled from the spec: `RFieldBase::AddReadCallback(fn)` (implemented in the
out-of-line translation unit) appends the function to `fReadCallbacks`, demotes the
field to non-simple, and returns the index usable for removal. -/
def ReadField.AddReadCallback (f : ReadField) (id : Nat) : ReadField × Nat :=
  ({ f with fReadCallbacks := f.fReadCallbacks ++ [id], fIsSimple := false },
   f.fReadCallbacks.length)

/-- Modelled from the spec: `RFieldBase::RemoveReadCallback(idx)` (implemented in the
out-of-line translation unit) erases the callback at `idx`; the simple trait is
re-established when the field is mappable and no callbacks remain. -/
def ReadField.RemoveReadCallback (f : ReadField) (idx : Nat) : ReadField :=
  let cbs := f.fReadCallbacks.take idx ++ f.fReadCallbacks.drop (idx + 1)
  { f with fReadCallbacks := cbs,
           fIsSimple := hasTrait f.fTraits kTraitMappable && cbs.isEmpty }

/-! ## Append path (`RFieldBase::Append`, header lines 473-480) -/

/-- One observable step of `RFieldBase::Append`. -/
inductive AppendEvent where
  /-- entry into the virtual `AppendImpl(from)` -/
  | appendImplCall
  /-- `fPrincipalColumn->Append(from)` -/
  | principalColumnAppend (source : Nat)
  deriving DecidableEq, Repr

/-- The part of the `RFieldBase` state that the append path consults.  The virtual
`AppendImpl` of the concrete field is abstracted by the trace and byte count it
would produce. -/
structure AppendField where
  fTraits : Nat
  /-- `fPrincipalColumn->GetElement()->GetPackedSize()` -/
  principalPackedSize : Nat
  /-- trace produced by the derived class body of `AppendImpl` -/
  appendImplTrace : List AppendEvent
  /-- return value of the derived class body of `AppendImpl` -/
  appendImplBytes : Nat
  deriving DecidableEq, Repr

/-- The virtual `AppendImpl(from)`: its entry is observable, then the derived class
body runs. -/
def AppendField.AppendImpl (f : AppendField) : List AppendEvent × Nat :=
  (AppendEvent.appendImplCall :: f.appendImplTrace, f.appendImplBytes)

/-- `RFieldBase::Append(from)`: `if (~fTraits & kTraitMappable) return AppendImpl(from);`
then `fPrincipalColumn->Append(from); return ...GetPackedSize();`. -/
def AppendField.Append (f : AppendField) (source : Nat) : List AppendEvent × Nat :=
  if !hasTrait f.fTraits kTraitMappable then
    f.AppendImpl
  else
    ([AppendEvent.principalColumnAppend source], f.principalPackedSize)

/-! ## Bitset value size (`RBitsetField::GetValueSize`, header line 1165)

The machine word is `unsigned long`; its byte size is kept as a parameter
`wordSize` (8 on LP64 platforms). -/

namespace RBitsetField

/-- `kBitsPerWord = kWordSize * 8` -/
def kBitsPerWord (wordSize : Nat) : Nat := wordSize * 8

/-- `GetValueSize() { return kWordSize * ((fN + kBitsPerWord - 1) / kBitsPerWord); }` -/
def GetValueSize (wordSize N : Nat) : Nat :=
  wordSize * ((N + kBitsPerWord wordSize - 1) / kBitsPerWord wordSize)

end RBitsetField

/-! ## Record traits (`RRecordField` constructor, header lines 983-996)

The base-class constructor initialises `fTraits` to `kTraitMappable` when the
field is constructed simple and to `0` otherwise (records are constructed with
`isSimple = false`); the record constructor then sets `fTraits |= kTraitTrivialType`
and intersects with each item field's traits: `fTraits &= itemFields[i]->GetTraits()`. -/

namespace RRecordField

/-- `fTraits` of the freshly constructed base for a record (`isSimple = false`),
after `fTraits |= kTraitTrivialType`. -/
def initialTraits : Nat := Nat.lor 0 kTraitTrivialType

/-- The final `fTraits` after the construction loop over the item fields. -/
def traits (itemTraits : List Nat) : Nat := itemTraits.foldl Nat.land initialTraits

end RRecordField

/-! ## Bulk I/O (`RFieldBase::ReadBulk`, `RFieldBase::RBulk`, header lines 267-351 and 511-529)

Cluster-local indices are pairs of a cluster id and an index within the cluster
(`RClusterIndex`).  Column accesses are recorded as trace events. -/

/-- `RClusterIndex`: cluster id plus cluster-local index. -/
structure RClusterIndex where
  clusterId : Nat
  index : Nat
  deriving DecidableEq, Repr

/-- `RBulkSpec::kAllSet = std::size_t(-1)` -/
def kAllSet : Nat := 2 ^ 64 - 1

/-- One observable column access of the bulk read path. -/
inductive ColumnEvent where
  /-- `fPrincipalColumn->ReadV(firstIndex, count, values)` -/
  | readV (firstIndex : RClusterIndex) (count : Nat)
  /-- a single-value `Read(clusterLocalIndex)` from the default `ReadBulkImpl` loop -/
  | readSingle (index : RClusterIndex)
  deriving DecidableEq, Repr

/-- The part of the field state the bulk read path consults. -/
structure BulkField where
  fIsSimple : Bool
  deriving DecidableEq, Repr

/-- Result of a field-level bulk read: the return value (`kAllSet` or the number of
newly available values), the updated `fMaskAvail` window of size `count`, and the
trace of column accesses. -/
structure BulkReadResult where
  nRead : Nat
  maskAvail : List Bool
  trace : List ColumnEvent
  deriving DecidableEq, Repr

/-- Modelled from the spec: the default `RFieldBase::ReadBulkImpl` (implemented in
the out-of-line translation unit) loops over the bulk range and reads the values
that are required (`maskReq`) and not already present (`maskAvail`), flipping their
availability; it returns the number of values it read. -/
def readBulkImplDefault (firstIndex : RClusterIndex) (maskReq maskAvail : List Bool) :
    BulkReadResult :=
  match maskReq, maskAvail with
  | [], avail => ⟨0, avail, []⟩
  | _, [] => ⟨0, [], []⟩
  | req :: reqs, avail :: avails =>
    let rest := readBulkImplDefault ⟨firstIndex.clusterId, firstIndex.index + 1⟩ reqs avails
    if req && !avail then
      ⟨rest.nRead + 1, true :: rest.maskAvail, ColumnEvent.readSingle firstIndex :: rest.trace⟩
    else
      ⟨rest.nRead, avail :: rest.maskAvail, rest.trace⟩

/-- `RFieldBase::ReadBulk(bulkSpec)`: for simple fields, ignore the masks, issue one
vectorized `ReadV` over the whole range, set all of `fMaskAvail` and return
`kAllSet`; otherwise defer to `ReadBulkImpl`. -/
def BulkField.ReadBulk (f : BulkField) (firstIndex : RClusterIndex) (count : Nat)
    (maskReq maskAvail : List Bool) : BulkReadResult :=
  if f.fIsSimple then
    ⟨kAllSet, List.replicate count true, [ColumnEvent.readV firstIndex count]⟩
  else
    readBulkImplDefault firstIndex maskReq maskAvail

/-- One observable memory operation of the bulk handle on its value array. -/
inductive MemEvent where
  /-- destruction of the `count` old values held by the array -/
  | destroyValues (count : Nat)
  /-- allocation of a new array of `count` values -/
  | reallocateArray (count : Nat)
  deriving DecidableEq, Repr

/-- The state of an `RFieldBase::RBulk` handle.  The value array contents are
abstracted away; `fSize`, `fCapacity`, `fMaskAvail`, `fNValidValues` and
`fFirstIndex` are kept as in the source. -/
structure RBulk where
  field : BulkField
  fCapacity : Nat
  fSize : Nat
  fMaskAvail : List Bool
  fNValidValues : Nat
  fFirstIndex : RClusterIndex
  deriving DecidableEq, Repr

namespace RBulk

/-- `RBulk::ContainsRange(firstIndex, size)` (header lines 295-301). -/
def ContainsRange (b : RBulk) (firstIndex : RClusterIndex) (size : Nat) : Bool :=
  if firstIndex.clusterId != b.fFirstIndex.clusterId then
    false
  else
    decide (b.fFirstIndex.index ≤ firstIndex.index) &&
    decide (firstIndex.index + size ≤ b.fFirstIndex.index + b.fSize)

/-- Modelled from the spec: `RBulk::CountValidValues` (implemented in the
out-of-line translation unit) recounts `fNValidValues` as the number of set
entries of `fMaskAvail`. -/
def CountValidValues (mask : List Bool) : Nat := (mask.filter id).length

/-- Modelled from the spec: `RBulk::Reset(firstIndex, size)` (implemented in the
out-of-line translation unit) destroys the old array contents, then resizes the
value array (reusing it if the capacity suffices), clears `fMaskAvail`, resets the
valid count and adopts the new range.  The returned trace shows the old contents
being destroyed before the array is resized. -/
def Reset (b : RBulk) (firstIndex : RClusterIndex) (size : Nat) : RBulk × List MemEvent :=
  ({ b with
      fCapacity := max b.fCapacity size
      fSize := size
      fMaskAvail := List.replicate size false
      fNValidValues := 0
      fFirstIndex := firstIndex },
   MemEvent.destroyValues b.fSize ::
     (if b.fCapacity < size then [MemEvent.reallocateArray size] else []))

/-- Result of `RBulk::ReadBulk`: the updated handle, the returned pointer expressed
as an offset (in values) from the array base, and the memory/column traces. -/
structure ReadBulkResult where
  state : RBulk
  ptrOffset : Nat
  memTrace : List MemEvent
  colTrace : List ColumnEvent
  deriving DecidableEq, Repr

/-- `RBulk::ReadBulk(firstIndex, maskReq, size)` (header lines 321-350): reset the
handle unless it covers the requested range; take the fast path when all `fSize`
slots are valid; otherwise delegate to the field's `ReadBulk` over the requested
window of `fMaskAvail` and update the valid-value count. -/
def ReadBulk (b : RBulk) (firstIndex : RClusterIndex) (maskReq : List Bool)
    (size : Nat) : ReadBulkResult :=
  let reset := if !b.ContainsRange firstIndex size then b.Reset firstIndex size else (b, [])
  let b1 := reset.1
  let offset := firstIndex.index - b1.fFirstIndex.index
  if b1.fNValidValues = b1.fSize then
    ⟨b1, offset, reset.2, []⟩
  else
    let window := (b1.fMaskAvail.drop offset).take size
    let r := b1.field.ReadBulk firstIndex size maskReq window
    let mask' := b1.fMaskAvail.take offset ++ r.maskAvail ++ b1.fMaskAvail.drop (offset + size)
    let nValid' :=
      if r.nRead = kAllSet then
        if offset = 0 && size = b1.fSize then b1.fSize else CountValidValues mask'
      else
        b1.fNValidValues + r.nRead
    ⟨{ b1 with fMaskAvail := mask', fNValidValues := nValid' }, offset, reset.2, r.trace⟩

end RBulk

/-! ## Cardinality bulk read (`RField<RNTupleCardinality<SizeT>>::ReadBulkImpl`,
header lines 1642-1666)

The principal column of a cardinality field is the offset column of the projected
collection.  Within one cluster, `offsets i` is the number of collection items in
the cluster up to and including entry `i`; the pages of the column are described
by `pageLen i`, the number of elements from index `i` to the end of its page. -/

/-- Modelled from the spec: the offset column consumed by the cardinality field,
with its cluster-local running offsets and its page structure (`MapV` exposes
`pageLen i` elements starting at index `i`). -/
structure OffsetColumn where
  offsets : Nat → Nat
  pageLen : Nat → Nat

/-- Modelled from the spec: `RColumn::GetCollectionInfo(index)` returns the start
of the collection at `index` (the previous offset, `0` at cluster start) and its
size (the difference of two consecutive offsets). -/
def OffsetColumn.GetCollectionInfo (col : OffsetColumn) (index : Nat) : Nat × Nat :=
  let start := if index = 0 then 0 else col.offsets (index - 1)
  (start, col.offsets index - start)

namespace RCardinalityBulk

/-- The inner page batch: for `i < nBatch`, `values[nEntries+i] = offsets[i] - lastOffset`
then `lastOffset = offsets[i]`, where `offs j` is the mapped page element at index
`j` of the page window.  Returns the produced values and the final `lastOffset`. -/
def batch (offs : Nat → Nat) (lastOffset : Nat) : Nat → List Nat × Nat
  | 0 => ([], lastOffset)
  | nBatch + 1 =>
    let v := offs 0 - lastOffset
    let rest := batch (fun j => offs (j + 1)) (offs 0) nBatch
    (v :: rest.1, rest.2)

/-- The `while (nRemainingEntries > 0)` loop of `ReadBulkImpl`: map the next page,
process `min nRemainingEntries nItemsUntilPageEnd` entries, advance.  (On pages
exposing at least one element the `nBatch = 0` escape is never taken.) -/
def loop (col : OffsetColumn) (firstIndex : Nat) (values : List Nat) (lastOffset : Nat)
    (nEntries : Nat) : Nat → List Nat
  | 0 => values
  | nRemaining + 1 =>
    let nItems := col.pageLen (firstIndex + nEntries)
    let nBatch := min (nRemaining + 1) nItems
    if h : nBatch = 0 then
      values
    else
      let b := batch (fun j => col.offsets (firstIndex + nEntries + j)) lastOffset nBatch
      loop col firstIndex (values ++ b.1) b.2 (nEntries + nBatch) (nRemaining + 1 - nBatch)
termination_by nRemaining => nRemaining + 1
decreasing_by
  have h1 : 1 ≤ nBatch := Nat.one_le_iff_ne_zero.mpr h
  omega

/-- `RField<RNTupleCardinality<SizeT>>::ReadBulkImpl` for a bulk of `count ≥ 1`
entries starting at cluster-local `firstIndex`: `values[0]` is the collection size
at `firstIndex`, the remaining entries are filled page-batch by page-batch, and the
return value is `kAllSet`. -/
def ReadBulkImpl (col : OffsetColumn) (firstIndex count : Nat) : List Nat × Nat :=
  let info := col.GetCollectionInfo firstIndex
  let lastOffset := info.1 + info.2
  (loop col firstIndex [info.2] lastOffset 1 (count - 1), kAllSet)

end RCardinalityBulk

/-! ## Cardinality fields are write-protected (`RCardinalityField::GenerateColumnsImpl`,
header line 1536) and the connection state machine (header line 181). -/

/-- `RFieldBase::EState` -/
inductive EState where
  | kUnconnected
  | kConnectedToSink
  | kConnectedToSource
  deriving DecidableEq, Repr

/-- `RCardinalityField::GenerateColumnsImpl()` (write path):
`throw RException(R__FAIL("Cardinality fields must only be used for reading"));` -/
def cardinalityGenerateColumnsImpl : Except String Unit :=
  Except.error "Cardinality fields must only be used for reading"

/-- Modelled from the spec: `ConnectPageSink` first asks the concrete field to
generate its backing columns for writing (`GenerateColumnsImpl()`); an error
thrown there aborts the connection, which otherwise moves the field to the
connected-to-sink state. -/
def connectPageSink (generateColumnsImpl : Except String Unit) : Except String EState :=
  match generateColumnsImpl with
  | Except.error e => Except.error e
  | Except.ok _ => Except.ok EState.kConnectedToSink

/-! ## Value handles (`RFieldBase::RValue`, header lines 211-265) -/

/-- `RFieldBase::RValue`: field back-pointer, object pointer and ownership flag.
Pointers are modelled as addresses. -/
structure RValue where
  fField : Nat
  fObjPtr : Nat
  fIsOwning : Bool
  deriving DecidableEq, Repr

namespace RValue

/-- `RValue::DestroyIfOwning`: the object destroyed by this call, if any —
`if (fIsOwning) fField->DestroyValue(fObjPtr);` -/
def DestroyIfOwning (v : RValue) : List Nat :=
  if v.fIsOwning then [v.fObjPtr] else []

/-- `RValue::~RValue() { DestroyIfOwning(); }`: the objects destroyed when the
handle is destroyed. -/
def dtor (v : RValue) : List Nat := v.DestroyIfOwning

/-- `RFieldBase::BindValue(where)`: `return RValue(this, where, false /* isOwning */);` -/
def BindValue (field ptr : Nat) : RValue := ⟨field, ptr, false⟩

/-- Modelled from the spec: `RFieldBase::GenerateValue()` (implemented in the
out-of-line translation unit) allocates and constructs a fresh object at `ptr`
and is the only operation returning an owning handle. -/
def GenerateValue (field ptr : Nat) : RValue := ⟨field, ptr, true⟩

/-- `RValue::operator=(RValue &&other)`: destroy own object if owning, set
`fIsOwning = false`, then swap all three members.  Returns the new destination,
the new source (`other` after the swaps) and the destroyed objects. -/
def moveAssign (dst src : RValue) : RValue × RValue × List Nat :=
  (⟨src.fField, src.fObjPtr, src.fIsOwning⟩,
   ⟨dst.fField, dst.fObjPtr, false⟩,
   dst.DestroyIfOwning)

/-- `RValue(RValue &&other)`: copy `fField` and `fObjPtr`, swap `fIsOwning` with
the new handle's default `false`.  Returns the new handle and `other` after the
swap. -/
def moveCtor (src : RValue) : RValue × RValue :=
  (⟨src.fField, src.fObjPtr, src.fIsOwning⟩, ⟨src.fField, src.fObjPtr, false⟩)

end RValue

/-! ## Schema iteration (`RFieldBase::RSchemaIteratorTemplate`, header lines 566-620,
and `begin`/`end`, header lines 706-715)

The field tree is a rose tree; a field is identified by its path of child indices
from the root (trees have exclusive ownership, so field pointers and paths are in
bijection).  The iterator stack holds `Position` entries (field pointer and index
in parent); the stack top is the head of the list (the C++ `std::vector` back). -/

/-- A field seen as a tree: only the `fSubFields` structure matters for the
schema iterator. -/
inductive FieldTree where
  | node : List FieldTree → FieldTree

/-- `fSubFields` -/
def FieldTree.subFields : FieldTree → List FieldTree
  | .node cs => cs

/-- The field reached from `t` by following a path of child indices. -/
def FieldTree.subtreeAt : FieldTree → List Nat → Option FieldTree
  | t, [] => some t
  | t, i :: p =>
    match t.subFields.get? i with
    | some c => c.subtreeAt p
    | none => none

mutual

/-- Number of fields in the tree, the root included. -/
def FieldTree.size : FieldTree → Nat
  | .node cs => 1 + FieldTree.sizeList cs

/-- Sum of the sizes of a forest. -/
def FieldTree.sizeList : List FieldTree → Nat
  | [] => 0
  | c :: cs => FieldTree.size c + FieldTree.sizeList cs

end

mutual

/-- Depth-first pre-order listing of the paths of the tree rooted at path `p`. -/
def FieldTree.preorder : FieldTree → List Nat → List (List Nat)
  | .node cs, p => p :: FieldTree.preorderList cs p 0

/-- Pre-order listing for the forest of children `cs` of the field at path `p`,
starting at child index `i`. -/
def FieldTree.preorderList : List FieldTree → List Nat → Nat → List (List Nat)
  | [], _, _ => []
  | c :: cs, p, i => FieldTree.preorder c (p ++ [i]) ++ FieldTree.preorderList cs p (i + 1)

end

/-- `RSchemaIteratorTemplate::Position`: the field (as its path) and
`fIdxInParent`. -/
structure SchemaPos where
  path : List Nat
  fIdxInParent : Int
  deriving DecidableEq, Repr

/-- `fieldPtr->fSubFields` for the field pointer denoted by path `p` (the empty
list for an invalid path, which never occurs on iterator stacks). -/
def subFieldsAt (root : FieldTree) (p : List Nat) : List FieldTree :=
  match root.subtreeAt p with
  | some t => t.subFields
  | none => []

/-- `itr->fFieldPtr->fParent->fSubFields.size()`: the number of siblings of the
field at path `p` (the child count of its parent). -/
def nSiblings (root : FieldTree) (p : List Nat) : Nat :=
  (subFieldsAt root p.dropLast).length

/-- The `while` loop of `Advance`: repeatedly increment the top's `fIdxInParent`;
move to the next sibling if one exists, pop otherwise, and produce the end
sentinel (the parent with index `-1`) when the stack has a single entry left
(`fStack.size() == 1`). -/
def advanceLoop (root : FieldTree) : List SchemaPos → List SchemaPos
  | [] => []
  | pos :: rest =>
    if pos.fIdxInParent + 1 < (nSiblings root pos.path : Int) then
      ⟨pos.path.dropLast ++ [(pos.fIdxInParent + 1).toNat], pos.fIdxInParent + 1⟩ :: rest
    else if rest.isEmpty then
      [⟨pos.path.dropLast, -1⟩]
    else
      advanceLoop root rest

/-- `RSchemaIteratorTemplate::Advance` (header lines 592-612): descend to the
first child if there is one, otherwise run the sibling/ascend loop. -/
def advance (root : FieldTree) : List SchemaPos → List SchemaPos
  | [] => []
  | pos :: rest =>
    if (subFieldsAt root pos.path).length ≠ 0 then
      ⟨pos.path ++ [0], 0⟩ :: pos :: rest
    else
      advanceLoop root (pos :: rest)

/-- `RFieldBase::begin()`: the root itself with index `-1` when it has no children
(equal to `end()`), else its first child with index `0`. -/
def beginStack (root : FieldTree) : List SchemaPos :=
  if root.subFields.isEmpty then [⟨[], -1⟩] else [⟨[0], 0⟩]

/-- `RFieldBase::end()`: the sentinel holding the root field with index `-1`. -/
def endStack : List SchemaPos := [⟨([] : List Nat), -1⟩]

/-- `operator*` dereferences the stack top (`fStack.back().fFieldPtr`); iterator
equality also compares only the top field. -/
def topPath (s : List SchemaPos) : List Nat :=
  match s with
  | [] => []
  | pos :: _ => pos.path

/-- The fields visited by `n` dereference/increment steps from iterator state `s`. -/
def runIter (root : FieldTree) : List SchemaPos → Nat → List (List Nat)
  | _, 0 => []
  | s, n + 1 => topPath s :: runIter root (advance root s) n

/-- The stack encoding of the field at (non-empty) path `p`: one entry per
non-empty prefix of `p`, the full path on top, each entry carrying its last index
as `fIdxInParent`.  (Takes the reversed path.) -/
def stackOfRev : List Nat → List SchemaPos
  | [] => []
  | i :: q => ⟨(i :: q).reverse, (i : Int)⟩ :: stackOfRev q

/-- The iterator stack that denotes the field at path `p`. -/
def stackOf (p : List Nat) : List SchemaPos := stackOfRev p.reverse

/-! ## Supporting lemmas on the schema iterator -/

theorem FieldTree.size_pos (t : FieldTree) : 1 ≤ t.size := by
  cases t with
  | node cs => simp [FieldTree.size]

theorem FieldTree.size_node (cs : List FieldTree) :
    FieldTree.size (.node cs) = 1 + FieldTree.sizeList cs := by
  rw [FieldTree.size]

theorem FieldTree.sizeList_cons (c : FieldTree) (cs : List FieldTree) :
    FieldTree.sizeList (c :: cs) = c.size + FieldTree.sizeList cs := by
  rw [FieldTree.sizeList]

theorem FieldTree.subFields_node (cs : List FieldTree) :
    FieldTree.subFields (.node cs) = cs := rfl

theorem FieldTree.preorder_node (cs : List FieldTree) (p : List Nat) :
    FieldTree.preorder (.node cs) p = p :: FieldTree.preorderList cs p 0 := by
  rw [FieldTree.preorder]

theorem FieldTree.preorderList_cons (c : FieldTree) (cs : List FieldTree) (p : List Nat)
    (i : Nat) :
    FieldTree.preorderList (c :: cs) p i =
      c.preorder (p ++ [i]) ++ FieldTree.preorderList cs p (i + 1) := by
  rw [FieldTree.preorderList]

theorem FieldTree.subtreeAt_append (t : FieldTree) (p q : List Nat) :
    t.subtreeAt (p ++ q) = (t.subtreeAt p).bind (fun s => s.subtreeAt q) := by
  induction p generalizing t with
  | nil => simp [FieldTree.subtreeAt]
  | cons i p ih =>
    rw [List.cons_append, FieldTree.subtreeAt]
    cases h : t.subFields[i]? with
    | none => simp [FieldTree.subtreeAt, h]
    | some c => simp [FieldTree.subtreeAt, h, ih]

theorem FieldTree.subtreeAt_concat (root t : FieldTree) (p : List Nat) (i : Nat)
    (ht : root.subtreeAt p = some t) :
    root.subtreeAt (p ++ [i]) = t.subFields.get? i := by
  rw [FieldTree.subtreeAt_append, ht]
  cases h : t.subFields[i]? <;> simp [FieldTree.subtreeAt, h]

theorem stackOf_concat (p : List Nat) (i : Nat) :
    stackOf (p ++ [i]) = ⟨p ++ [i], (i : Int)⟩ :: stackOf p := by
  have h : (p ++ [i]).reverse = i :: p.reverse := by simp
  rw [stackOf, h, stackOfRev]
  simp [stackOf]

theorem stackOf_eq_nil (p : List Nat) : stackOf p = [] ↔ p = [] := by
  rcases List.eq_nil_or_concat p with rfl | ⟨q, i, rfl⟩
  · simp [stackOf, stackOfRev]
  · rw [List.concat_eq_append, stackOf_concat]
    simp

theorem topPath_stackOf (p : List Nat) (hp : p ≠ []) : topPath (stackOf p) = p := by
  rcases List.eq_nil_or_concat p with rfl | ⟨q, i, rfl⟩
  · contradiction
  · rw [List.concat_eq_append, stackOf_concat, topPath]

theorem subFieldsAt_of_subtree (root t : FieldTree) (p : List Nat)
    (ht : root.subtreeAt p = some t) : subFieldsAt root p = t.subFields := by
  rw [subFieldsAt, ht]

theorem nSiblings_concat (root t : FieldTree) (p : List Nat) (i : Nat)
    (ht : root.subtreeAt p = some t) :
    nSiblings root (p ++ [i]) = t.subFields.length := by
  rw [nSiblings, List.dropLast_concat, subFieldsAt_of_subtree root t p ht]

theorem advanceLoop_concat (root t : FieldTree) (p : List Nat) (i : Nat)
    (ht : root.subtreeAt p = some t) :
    advanceLoop root (stackOf (p ++ [i])) =
      if i + 1 < t.subFields.length then stackOf (p ++ [i + 1])
      else if p = [] then [⟨[], -1⟩] else advanceLoop root (stackOf p) := by
  rw [stackOf_concat, advanceLoop]
  simp only [nSiblings_concat root t p i ht, List.dropLast_concat]
  by_cases hlt : i + 1 < t.subFields.length
  · rw [if_pos (by exact_mod_cast hlt), if_pos hlt, stackOf_concat]
    norm_num
  · rw [if_neg (by exact_mod_cast hlt), if_neg hlt]
    by_cases hp : p = []
    · subst hp
      rw [if_pos rfl]
      rfl
    · rw [if_neg hp]
      obtain ⟨x, xs, hxs⟩ : ∃ x xs, stackOf p = x :: xs := by
        cases h : stackOf p with
        | nil => exact absurd ((stackOf_eq_nil p).mp h) hp
        | cons x xs => exact ⟨x, xs, rfl⟩
      rw [hxs]
      rfl

theorem advance_stackOf (root s : FieldTree) (q : List Nat) (hq : q ≠ [])
    (hs : root.subtreeAt q = some s) :
    advance root (stackOf q) =
      if s.subFields.length ≠ 0 then stackOf (q ++ [0])
      else advanceLoop root (stackOf q) := by
  rcases List.eq_nil_or_concat q with rfl | ⟨p, i, rfl⟩
  · contradiction
  · rw [List.concat_eq_append, stackOf_concat, advance,
      subFieldsAt_of_subtree root s (p ++ [i]) (by rwa [List.concat_eq_append] at hs)]
    by_cases hlen : s.subFields.length ≠ 0
    · rw [if_pos hlen, if_pos hlen, stackOf_concat, stackOf_concat]
      norm_num
    · rw [if_neg hlen, if_neg hlen, ← stackOf_concat]

theorem runIter_one (root : FieldTree) (s : List SchemaPos) :
    runIter root s 1 = [topPath s] := rfl

theorem runIter_add (root : FieldTree) (m n : Nat) :
    ∀ s, runIter root s (m + n) =
      runIter root s m ++ runIter root ((advance root)^[m] s) n := by
  induction m with
  | zero => intro s; simp [runIter]
  | succ m ih =>
    intro s
    have h1 : m + 1 + n = (m + n) + 1 := by omega
    rw [h1, runIter, runIter, ih (advance root s), Function.iterate_succ_apply,
      List.cons_append]

/-- Traversal of a consecutive run of children: starting at the `j`-th child of
the field at path `q` and consuming the sizes of the remaining children, the
iterator visits their subtrees in pre-order and comes back out of `q` (to the end
sentinel when `q` is the root). -/
theorem chainStep (root : FieldTree) (N : Nat)
    (htrav : ∀ (t : FieldTree) (p : List Nat) (i : Nat), t.size ≤ N →
      root.subtreeAt (p ++ [i]) = some t →
      (advance root)^[t.size] (stackOf (p ++ [i])) =
        advanceLoop root (stackOf (p ++ [i])) ∧
      runIter root (stackOf (p ++ [i])) t.size = t.preorder (p ++ [i])) :
    ∀ (cs : List FieldTree) (q : List Nat) (tq : FieldTree) (j : Nat),
      root.subtreeAt q = some tq → tq.subFields.drop j = cs → cs ≠ [] →
      FieldTree.sizeList cs ≤ N →
      (advance root)^[FieldTree.sizeList cs] (stackOf (q ++ [j])) =
        (if q = [] then [⟨[], -1⟩] else advanceLoop root (stackOf q)) ∧
      runIter root (stackOf (q ++ [j])) (FieldTree.sizeList cs) =
        FieldTree.preorderList cs q j := by
  intro cs
  induction cs with
  | nil => exact fun q tq j _ _ hne _ => absurd rfl hne
  | cons c cs ih =>
    intro q tq j hq hdrop hne hsz
    have hlenj : tq.subFields.length - j = (c :: cs).length := by
      rw [← List.length_drop, hdrop]
    have hget : tq.subFields.get? j = some c := by
      have h0 : (tq.subFields.drop j).get? 0 = some c := by rw [hdrop]; rfl
      rwa [List.get?_drop, Nat.add_zero] at h0
    have hc : root.subtreeAt (q ++ [j]) = some c := by
      rw [FieldTree.subtreeAt_concat root tq q j hq, hget]
    have hszc : c.size ≤ N := by
      rw [FieldTree.sizeList_cons] at hsz
      omega
    obtain ⟨hiter_c, hrun_c⟩ := htrav c q j hszc hc
    have hloop := advanceLoop_concat root tq q j hq
    cases cs with
    | nil =>
      have hlen : tq.subFields.length = j + 1 := by
        simp only [List.length_cons, List.length_nil] at hlenj
        omega
      have hone : FieldTree.sizeList [c] = c.size := by
        rw [FieldTree.sizeList_cons, FieldTree.sizeList]
        omega
      refine ⟨?_, ?_⟩
      · rw [hone, hiter_c, hloop, if_neg (by omega)]
      · rw [hone, hrun_c, FieldTree.preorderList_cons, FieldTree.preorderList,
          List.append_nil]
    | cons c2 cs2 =>
      have hlt : j + 1 < tq.subFields.length := by
        simp only [List.length_cons] at hlenj
        omega
      have hdrop2 : tq.subFields.drop (j + 1) = c2 :: cs2 := by
        have h1 : tq.subFields.drop (j + 1) = (tq.subFields.drop j).drop 1 := by
          rw [List.drop_drop, Nat.add_comm]
        rw [h1, hdrop, List.drop_one, List.tail_cons]
      have hszr : FieldTree.sizeList (c2 :: cs2) ≤ N := by
        rw [FieldTree.sizeList_cons] at hsz
        have := c.size_pos
        omega
      obtain ⟨hiter2, hrun2⟩ := ih q tq (j + 1) hq hdrop2 (by simp) hszr
      have hstep : advanceLoop root (stackOf (q ++ [j])) = stackOf (q ++ [j + 1]) := by
        rw [hloop, if_pos hlt]
      refine ⟨?_, ?_⟩
      · rw [FieldTree.sizeList_cons, Nat.add_comm, Function.iterate_add_apply,
          hiter_c, hstep, hiter2]
      · rw [FieldTree.sizeList_cons, runIter_add, hiter_c, hstep,
          hrun_c, hrun2]
        simp [FieldTree.preorderList_cons]

/-- Traversal of one subtree: the iterator started on a (non-root) field performs
`size` advances visiting exactly the pre-order of the subtree and ends in the
state that exits the subtree (`advanceLoop` on the field's stack). -/
theorem traverse (root : FieldTree) : ∀ (N : Nat) (t : FieldTree) (p : List Nat) (i : Nat),
    t.size ≤ N → root.subtreeAt (p ++ [i]) = some t →
    (advance root)^[t.size] (stackOf (p ++ [i])) =
      advanceLoop root (stackOf (p ++ [i])) ∧
    runIter root (stackOf (p ++ [i])) t.size = t.preorder (p ++ [i]) := by
  intro N
  induction N using Nat.strong_induction_on with
  | _ N ihN =>
    intro t p i hsz ht
    have hq : (p ++ [i] : List Nat) ≠ [] := by simp
    have hadv := advance_stackOf root t (p ++ [i]) hq ht
    obtain ⟨cs⟩ := t
    cases cs with
    | nil =>
      have hsz1 : FieldTree.size (.node []) = 1 := by
        rw [FieldTree.size_node, FieldTree.sizeList]
      refine ⟨?_, ?_⟩
      · rw [hsz1, Function.iterate_one, hadv,
          if_neg (by simp [FieldTree.subFields_node])]
      · rw [hsz1, runIter_one, topPath_stackOf _ hq, FieldTree.preorder_node,
          FieldTree.preorderList]
    | cons c cs' =>
      have hN1 : 1 ≤ N := le_trans (FieldTree.size_pos _) hsz
      have hlen : (FieldTree.subFields (.node (c :: cs'))).length ≠ 0 := by
        simp [FieldTree.subFields_node]
      have hadv1 : advance root (stackOf (p ++ [i])) = stackOf ((p ++ [i]) ++ [0]) := by
        rw [hadv, if_pos hlen]
      have hszcs : FieldTree.sizeList (c :: cs') ≤ N - 1 := by
        rw [FieldTree.size_node] at hsz
        omega
      obtain ⟨hiterC, hrunC⟩ :=
        chainStep root (N - 1)
          (fun t' p' i' hsz' ht' => ihN (N - 1) (by omega) t' p' i' hsz' ht')
          (c :: cs') (p ++ [i]) (.node (c :: cs')) 0 ht rfl (by simp) hszcs
      rw [if_neg hq] at hiterC
      refine ⟨?_, ?_⟩
      · rw [FieldTree.size_node, Nat.add_comm, Function.iterate_add_apply,
          Function.iterate_one, hadv1, hiterC]
      · rw [FieldTree.size_node, runIter_add, Function.iterate_one,
          hadv1, hrunC, runIter_one, topPath_stackOf _ hq,
          FieldTree.preorder_node, List.cons_append, List.nil_append]

/-- Every path listed by `preorder`/`preorderList` extends the base path; the
forest version also reports the child-index window. -/
theorem preorder_shape (N : Nat) :
    (∀ (t : FieldTree) (p x : List Nat), t.size ≤ N → x ∈ t.preorder p →
      ∃ r, x = p ++ r) ∧
    (∀ (cs : List FieldTree) (p : List Nat) (j : Nat) (x : List Nat),
      FieldTree.sizeList cs ≤ N → x ∈ FieldTree.preorderList cs p j →
      ∃ k r, x = p ++ (k :: r) ∧ j ≤ k ∧ k < j + cs.length) := by
  induction N using Nat.strong_induction_on with
  | _ N ihN =>
    have htree : ∀ (t : FieldTree) (p x : List Nat), t.size ≤ N → x ∈ t.preorder p →
        ∃ r, x = p ++ r := by
      intro t p x hsz hx
      obtain ⟨cs⟩ := t
      rw [FieldTree.preorder_node] at hx
      rcases List.mem_cons.mp hx with rfl | hx'
      · exact ⟨[], by simp⟩
      · have hN1 : 1 ≤ N := le_trans (FieldTree.size_pos _) hsz
        have hszl : FieldTree.sizeList cs ≤ N - 1 := by
          rw [FieldTree.size_node] at hsz
          omega
        obtain ⟨k, r, hkr, _, _⟩ := (ihN (N - 1) (by omega)).2 cs p 0 x hszl hx'
        exact ⟨k :: r, hkr⟩
    refine ⟨htree, ?_⟩
    intro cs
    induction cs with
    | nil =>
      intro p j x _ hx
      rw [FieldTree.preorderList] at hx
      cases hx
    | cons c cs ihcs =>
      intro p j x hsz hx
      rw [FieldTree.preorderList_cons] at hx
      rcases List.mem_append.mp hx with hx1 | hx2
      · have hszc : c.size ≤ N := by
          rw [FieldTree.sizeList_cons] at hsz
          omega
        obtain ⟨r, hr⟩ := htree c (p ++ [j]) x hszc hx1
        refine ⟨j, r, by simpa [List.append_assoc] using hr, le_refl j, ?_⟩
        simp only [List.length_cons]
        omega
      · have hszr : FieldTree.sizeList cs ≤ N := by
          rw [FieldTree.sizeList_cons] at hsz
          omega
        obtain ⟨k, r, hkr, hk1, hk2⟩ := ihcs p (j + 1) x hszr hx2
        refine ⟨k, r, hkr, by omega, ?_⟩
        simp only [List.length_cons]
        omega

/-- The pre-order lists carry no duplicates. -/
theorem preorder_nodup (N : Nat) :
    (∀ (t : FieldTree) (p : List Nat), t.size ≤ N → (t.preorder p).Nodup) ∧
    (∀ (cs : List FieldTree) (p : List Nat) (j : Nat), FieldTree.sizeList cs ≤ N →
      (FieldTree.preorderList cs p j).Nodup) := by
  induction N using Nat.strong_induction_on with
  | _ N ihN =>
    have htree : ∀ (t : FieldTree) (p : List Nat), t.size ≤ N → (t.preorder p).Nodup := by
      intro t p hsz
      obtain ⟨cs⟩ := t
      rw [FieldTree.preorder_node]
      have hN1 : 1 ≤ N := le_trans (FieldTree.size_pos _) hsz
      have hszl : FieldTree.sizeList cs ≤ N - 1 := by
        rw [FieldTree.size_node] at hsz
        omega
      rw [List.nodup_cons]
      refine ⟨?_, (ihN (N - 1) (by omega)).2 cs p 0 hszl⟩
      intro hmem
      obtain ⟨k, r, hkr, _, _⟩ := (preorder_shape (N - 1)).2 cs p 0 p hszl hmem
      have hlen := congrArg List.length hkr
      simp at hlen
    refine ⟨htree, ?_⟩
    intro cs
    induction cs with
    | nil =>
      intro p j _
      rw [FieldTree.preorderList]
      exact List.nodup_nil
    | cons c cs ihcs =>
      intro p j hsz
      rw [FieldTree.preorderList_cons]
      have hszc : c.size ≤ N := by
        rw [FieldTree.sizeList_cons] at hsz
        omega
      have hszr : FieldTree.sizeList cs ≤ N := by
        rw [FieldTree.sizeList_cons] at hsz
        omega
      refine (htree c (p ++ [j]) hszc).append (ihcs p (j + 1) hszr) ?_
      intro x hx1 hx2
      obtain ⟨r1, hr1⟩ := (preorder_shape N).1 c (p ++ [j]) x hszc hx1
      obtain ⟨k, r2, hr2, hk1, _⟩ := (preorder_shape N).2 cs p (j + 1) x hszr hx2
      rw [List.append_assoc] at hr1
      rw [hr1] at hr2
      have hsuffix : ([j] ++ r1 : List Nat) = k :: r2 := List.append_cancel_left hr2
      have hjk : j = k := by
        have := congrArg (fun l => List.head? l) hsuffix
        simpa using this
      omega

/-- Lifting membership from one child's pre-order into the forest pre-order. -/
theorem mem_preorderList_of_get :
    ∀ (cs : List FieldTree) (i j : Nat) (c : FieldTree) (x p : List Nat),
      cs.get? i = some c → x ∈ c.preorder (p ++ [j + i]) →
      x ∈ FieldTree.preorderList cs p j := by
  intro cs
  induction cs with
  | nil =>
    intro i j c x p hget _
    simp at hget
  | cons c0 cs ih =>
    intro i j c x p hget hx
    rw [FieldTree.preorderList_cons]
    cases i with
    | zero =>
      have hc : c = c0 := by simpa using hget.symm
      subst hc
      exact List.mem_append_left _ (by simpa using hx)
    | succ i' =>
      refine List.mem_append_right _ ?_
      refine ih i' (j + 1) c x p (by simpa using hget) ?_
      have harith : j + 1 + i' = j + (i' + 1) := by omega
      rwa [harith]

/-- Every (proper) descendant path of the tree occurs in its pre-order listing. -/
theorem mem_preorder_of_subtree :
    ∀ (r : List Nat) (t : FieldTree) (p : List Nat),
      (t.subtreeAt r).isSome = true → p ++ r ∈ t.preorder p := by
  intro r
  induction r with
  | nil =>
    intro t p _
    obtain ⟨cs⟩ := t
    rw [FieldTree.preorder_node]
    simp
  | cons i r ihr =>
    intro t p hsome
    obtain ⟨cs⟩ := t
    rw [FieldTree.subtreeAt] at hsome
    cases hget : cs.get? i with
    | none =>
      rw [FieldTree.subFields_node] at hsome
      rw [List.get?_eq_getElem?] at hget
      simp [hget] at hsome
    | some c =>
      have hgetE : cs[i]? = some c := by rwa [List.get?_eq_getElem?] at hget
      have hsome' : (c.subtreeAt r).isSome = true := by
        rw [FieldTree.subFields_node] at hsome
        simpa [hgetE] using hsome
      have hx : (p ++ [i]) ++ r ∈ c.preorder (p ++ [i]) := ihr c (p ++ [i]) hsome'
      rw [FieldTree.preorder_node]
      refine List.mem_cons_of_mem _ ?_
      have hshape : p ++ i :: r = (p ++ [i]) ++ r := by simp
      rw [hshape]
      refine mem_preorderList_of_get cs i 0 c ((p ++ [i]) ++ r) p hget ?_
      simpa using hx

/-! ## Supporting lemmas on the traits bitset -/

theorem hasTrait_two_pow (t i : Nat) : hasTrait t (2 ^ i) = t.testBit i := by
  have hl : Nat.land t (2 ^ i) = t &&& 2 ^ i := rfl
  simp only [hasTrait, hl, Nat.and_two_pow]
  cases h : t.testBit i <;> simp [h, Nat.pow_eq_zero]

theorem hasTrait_triviallyConstructible (t : Nat) :
    hasTrait t kTraitTriviallyConstructible = t.testBit 0 := by
  have := hasTrait_two_pow t 0
  simpa [kTraitTriviallyConstructible] using this

theorem hasTrait_triviallyDestructible (t : Nat) :
    hasTrait t kTraitTriviallyDestructible = t.testBit 1 := by
  have := hasTrait_two_pow t 1
  simpa [kTraitTriviallyDestructible] using this

theorem foldl_land_testBit (ts : List Nat) (a i : Nat) :
    (ts.foldl Nat.land a).testBit i = (a.testBit i && ts.all fun t => t.testBit i) := by
  induction ts generalizing a with
  | nil => simp
  | cons t ts ih =>
    have hland : Nat.land a t = a &&& t := rfl
    simp [List.foldl_cons, ih, hland, Nat.testBit_and, Bool.and_assoc]

/-! ## Supporting lemmas on the cardinality bulk read -/

namespace RCardinalityBulk

theorem batch_length (offs : Nat → Nat) (lastOffset n : Nat) :
    (batch offs lastOffset n).1.length = n := by
  induction n generalizing offs lastOffset with
  | zero => rfl
  | succ n ih => simp [batch, ih]

theorem batch_get (offs : Nat → Nat) (lastOffset n j : Nat) (hj : j < n) :
    (batch offs lastOffset n).1.get? j =
      some (offs j - (if j = 0 then lastOffset else offs (j - 1))) := by
  induction n generalizing offs lastOffset j with
  | zero => omega
  | succ n ih =>
    cases j with
    | zero => simp [batch]
    | succ j =>
      have hj' : j < n := by omega
      have := ih (fun t => offs (t + 1)) (offs 0) j hj'
      simp only [batch, List.get?_cons_succ, this]
      cases j with
      | zero => simp
      | succ j => simp [Nat.succ_sub_one]

theorem batch_snd (offs : Nat → Nat) (lastOffset n : Nat) :
    (batch offs lastOffset n).2 = if n = 0 then lastOffset else offs (n - 1) := by
  induction n generalizing offs lastOffset with
  | zero => rfl
  | succ n ih =>
    simp only [batch, ih]
    cases n with
    | zero => simp
    | succ n => simp [Nat.succ_sub_one]

theorem loop_spec (col : OffsetColumn) (firstIndex : Nat)
    (hp : ∀ i, 1 ≤ col.pageLen i) :
    ∀ nRemaining values lastOffset nEntries, values.length = nEntries → 1 ≤ nEntries →
    lastOffset = col.offsets (firstIndex + nEntries - 1) →
    (loop col firstIndex values lastOffset nEntries nRemaining).length
        = nEntries + nRemaining ∧
    (∀ j, j < nEntries →
      (loop col firstIndex values lastOffset nEntries nRemaining).get? j = values.get? j) ∧
    (∀ j, nEntries ≤ j → j < nEntries + nRemaining →
      (loop col firstIndex values lastOffset nEntries nRemaining).get? j =
        some (col.offsets (firstIndex + j) - col.offsets (firstIndex + j - 1))) := by
  intro n
  induction n using Nat.strong_induction_on with
  | _ n ih =>
    intro values lastOffset nEntries hlen hpos hlast
    match n with
    | 0 =>
      refine ⟨by simpa [loop], fun j hj => by simp [loop], fun j hj hj' => by omega⟩
    | Nat.succ m =>
      have hItems : 1 ≤ col.pageLen (firstIndex + nEntries) := hp _
      set nItems := col.pageLen (firstIndex + nEntries) with hItemsDef
      set nBatch := min (m + 1) nItems with hBatchDef
      have hBatch1 : 1 ≤ nBatch := le_min (by omega) hItems
      have hBatchLe : nBatch ≤ m + 1 := min_le_left _ _
      have hne : ¬ nBatch = 0 := by omega
      set offs : Nat → Nat := fun j => col.offsets (firstIndex + nEntries + j) with hoffs
      set b := batch offs lastOffset nBatch with hb
      have hstep :
          loop col firstIndex values lastOffset nEntries (m + 1) =
            loop col firstIndex (values ++ b.1) b.2 (nEntries + nBatch)
              (m + 1 - nBatch) := by
        rw [loop]
        simp only [← hItemsDef, ← hBatchDef, dif_neg hne, ← hoffs, ← hb]
      have hlen' : (values ++ b.1).length = nEntries + nBatch := by
        simp [hlen, hb, batch_length]
      have hlast' : b.2 = col.offsets (firstIndex + (nEntries + nBatch) - 1) := by
        rw [hb, batch_snd, if_neg hne, hoffs]
        simp only []
        congr 1
        omega
      have hrec := ih (m + 1 - nBatch) (by omega) (values ++ b.1) b.2 (nEntries + nBatch)
        hlen' (by omega) hlast'
      obtain ⟨hL, hKeep, hNew⟩ := hrec
      refine ⟨?_, fun j hj => ?_, fun j hj hj' => ?_⟩
      · rw [hstep, hL]
        omega
      · rw [hstep, hKeep j (by omega), List.get?_append (by omega)]
      · rw [hstep]
        by_cases hcase : j < nEntries + nBatch
        · rw [hKeep j hcase, List.get?_append_right (by omega), hlen]
          have hji : j - nEntries < nBatch := by omega
          rw [hb, batch_get offs lastOffset nBatch (j - nEntries) hji, hoffs]
          simp only []
          by_cases hj0 : j - nEntries = 0
          · rw [if_pos hj0, hj0, hlast]
            have e1 : firstIndex + nEntries + 0 = firstIndex + j := by omega
            have e2 : firstIndex + nEntries - 1 = firstIndex + j - 1 := by omega
            rw [e1, e2]
          · rw [if_neg hj0]
            have e1 : firstIndex + nEntries + (j - nEntries) = firstIndex + j := by omega
            have e2 : firstIndex + nEntries + (j - nEntries - 1) = firstIndex + j - 1 := by
              omega
            rw [e1, e2]
        · rw [hNew j (by omega) (by omega)]

end RCardinalityBulk

/-! ## Claim theorems -/

/-- C1: for a simple field, `Read` is a single principal-column read — it invokes
neither the recursive impl nor any callback; for a non-simple field, after the
value is populated (by the principal column when mappable, by the recursive impl
otherwise), `Read` invokes the registered callbacks on the destination pointer in
registration order; and `AddReadCallback` clears the simple flag. -/
theorem read_simple_fast_path_and_callbacks (f : ReadField) (target cb : Nat) :
    (f.fIsSimple = true → f.Read target = [ReadEvent.principalColumnRead target]) ∧
    (f.fIsSimple = false →
      f.Read target =
        (if hasTrait f.fTraits kTraitMappable then [ReadEvent.principalColumnRead target]
         else [ReadEvent.readImpl target])
        ++ f.fReadCallbacks.map (fun id => ReadEvent.callback id target)) ∧
    (f.AddReadCallback cb).1.fIsSimple = false := by
  refine ⟨fun h => by simp [ReadField.Read, h], fun h => ?_, rfl⟩
  cases hcb : f.fReadCallbacks with
  | nil => simp [ReadField.Read, h, hcb, InvokeReadCallbacks]
  | cons c cs => simp [ReadField.Read, h, hcb, InvokeReadCallbacks]

theorem read_simple_fast_path_and_callbacks_witness :
    ReadField.Read ⟨4, true, [7]⟩ 3 = [ReadEvent.principalColumnRead 3] ∧
    (ReadField.AddReadCallback ⟨4, true, []⟩ 9).1.fIsSimple = false :=
  ⟨(read_simple_fast_path_and_callbacks ⟨4, true, [7]⟩ 3 9).1 rfl,
   (read_simple_fast_path_and_callbacks ⟨4, true, []⟩ 3 9).2.2⟩

/-- C2: for a mappable field, `Append` delegates to the principal column without
calling `AppendImpl` and returns exactly the packed element size of the principal
column's element. -/
theorem append_mappable_fast_path (f : AppendField) (source : Nat)
    (h : hasTrait f.fTraits kTraitMappable = true) :
    f.Append source = ([AppendEvent.principalColumnAppend source], f.principalPackedSize) ∧
    AppendEvent.appendImplCall ∉ (f.Append source).1 ∧
    (f.Append source).2 = f.principalPackedSize := by
  refine ⟨by simp [AppendField.Append, h], ?_, by simp [AppendField.Append, h]⟩
  simp [AppendField.Append, h]

theorem append_mappable_fast_path_witness :
    AppendField.Append ⟨4, 8, [], 0⟩ 11 = ([AppendEvent.principalColumnAppend 11], 8) :=
  (append_mappable_fast_path ⟨4, 8, [], 0⟩ 11 (by decide)).1

/-- C3, counterexample: a bulk handle over a simple field covering two slots of
cluster 0 with only the first slot valid.  The requested range `[0, 1)` lies
within the handle's range and every requested slot is valid in the availability
mask, yet `ReadBulk` does touch the columns (it issues a vectorized `ReadV`),
because the code's fast-path condition `fNValidValues == fSize` checks all slots
of the handle, not the requested ones. -/
theorem rbulk_requested_valid_touches_columns :
    RBulk.ContainsRange ⟨⟨true⟩, 2, 2, [true, false], 1, ⟨0, 0⟩⟩ ⟨0, 0⟩ 1 = true ∧
    (((⟨⟨true⟩, 2, 2, [true, false], 1, ⟨0, 0⟩⟩ : RBulk).fMaskAvail.drop 0).take 1).all id
      = true ∧
    (RBulk.ReadBulk ⟨⟨true⟩, 2, 2, [true, false], 1, ⟨0, 0⟩⟩ ⟨0, 0⟩ [true] 1).colTrace
      = [ColumnEvent.readV ⟨0, 0⟩ 1] := by
  decide

/-- C3, amended: `ReadBulk` resets the handle whenever the requested range is not
covered within the same cluster (the value array is resized after the old contents
are destroyed, the availability mask is cleared and the new range is adopted); and
when every slot of the handle's current range is valid (`fNValidValues = fSize`),
`ReadBulk` returns the base pointer of the requested sub-range without touching
the columns. -/
theorem rbulk_reset_and_fast_path (b : RBulk) (firstIndex : RClusterIndex)
    (maskReq : List Bool) (size : Nat) :
    (b.ContainsRange firstIndex size = false →
      (b.ReadBulk firstIndex maskReq size).state.fFirstIndex = firstIndex ∧
      (b.ReadBulk firstIndex maskReq size).state.fSize = size ∧
      (b.ReadBulk firstIndex maskReq size).memTrace =
        MemEvent.destroyValues b.fSize ::
          (if b.fCapacity < size then [MemEvent.reallocateArray size] else []) ∧
      (b.Reset firstIndex size).1.fMaskAvail = List.replicate size false ∧
      (b.Reset firstIndex size).1.fNValidValues = 0) ∧
    (b.ContainsRange firstIndex size = true → b.fNValidValues = b.fSize →
      b.ReadBulk firstIndex maskReq size =
        ⟨b, firstIndex.index - b.fFirstIndex.index, [], []⟩) := by
  constructor
  · intro h
    refine ⟨?_, ?_, ?_, rfl, rfl⟩ <;>
      · simp only [RBulk.ReadBulk, RBulk.Reset, h, Bool.not_false, if_true]
        split <;> rfl
  · intro h1 h2
    simp [RBulk.ReadBulk, h1, h2]

theorem rbulk_reset_and_fast_path_witness :
    RBulk.ReadBulk ⟨⟨false⟩, 4, 4, [true, true, true, true], 4, ⟨0, 10⟩⟩ ⟨0, 11⟩ [true] 2 =
      ⟨⟨⟨false⟩, 4, 4, [true, true, true, true], 4, ⟨0, 10⟩⟩, 1, [], []⟩ :=
  (rbulk_reset_and_fast_path ⟨⟨false⟩, 4, 4, [true, true, true, true], 4, ⟨0, 10⟩⟩
    ⟨0, 11⟩ [true] 2).2 (by decide) rfl

/-- C4: for a simple field, the field-level `ReadBulk` performs one contiguous
vectorized read of `count` values from the principal column (independently of the
required-slots mask), sets every entry of the availability mask, and returns
`kAllSet`. -/
theorem readbulk_simple_vectorized (f : BulkField) (firstIndex : RClusterIndex)
    (count : Nat) (maskReq maskAvail : List Bool) (h : f.fIsSimple = true) :
    f.ReadBulk firstIndex count maskReq maskAvail =
      ⟨kAllSet, List.replicate count true, [ColumnEvent.readV firstIndex count]⟩ := by
  simp [BulkField.ReadBulk, h]

theorem readbulk_simple_vectorized_witness :
    BulkField.ReadBulk ⟨true⟩ ⟨2, 5⟩ 3 [true, false, true] [false, false, false] =
      ⟨kAllSet, [true, true, true], [ColumnEvent.readV ⟨2, 5⟩ 3]⟩ :=
  readbulk_simple_vectorized ⟨true⟩ ⟨2, 5⟩ 3 [true, false, true] [false, false, false] rfl

/-- C5: iterating the schema iterator from `begin()` to `end()` visits every field
of the tree below the root exactly once (the visited paths are exactly the
depth-first pre-order of the tree with the root dropped, without duplicates, and
every descendant path occurs among them), and after consuming them the iterator is
the end sentinel holding the root field with parent-index `-1`. -/
theorem schema_iterator_preorder (root : FieldTree) :
    runIter root (beginStack root) (root.size - 1) = (root.preorder []).drop 1 ∧
    (advance root)^[root.size - 1] (beginStack root) = endStack ∧
    (runIter root (beginStack root) (root.size - 1)).Nodup ∧
    (∀ q, q ≠ [] → (root.subtreeAt q).isSome = true →
      q ∈ runIter root (beginStack root) (root.size - 1)) := by
  obtain ⟨cs⟩ := root
  cases cs with
  | nil =>
    have hsz : FieldTree.size (.node []) - 1 = 0 := by
      rw [FieldTree.size_node, FieldTree.sizeList]
    rw [hsz]
    refine ⟨?_, rfl, ?_, ?_⟩
    · rw [runIter, FieldTree.preorder_node, FieldTree.preorderList, List.drop_one,
        List.tail_cons]
    · rw [runIter]
      exact List.nodup_nil
    · intro q hq hsome
      exfalso
      cases q with
      | nil => exact hq rfl
      | cons i r =>
        rw [FieldTree.subtreeAt, FieldTree.subFields_node] at hsome
        simp at hsome
  | cons c cs' =>
    set t : FieldTree := .node (c :: cs') with ht
    have hroot : t.subtreeAt [] = some t := rfl
    have hbegin : beginStack t = stackOf ([] ++ [0]) := by
      rw [beginStack, if_neg (by rw [ht, FieldTree.subFields_node]; simp),
        stackOf_concat]
      rfl
    have hsz : t.size - 1 = FieldTree.sizeList (c :: cs') := by
      rw [ht, FieldTree.size_node]
      omega
    obtain ⟨hiterC, hrunC⟩ :=
      chainStep t (FieldTree.sizeList (c :: cs'))
        (fun t' p' i' hsz' ht' =>
          traverse t (FieldTree.sizeList (c :: cs')) t' p' i' hsz' ht')
        (c :: cs') [] t 0 hroot (by rw [ht, FieldTree.subFields_node, List.drop_zero])
        (by simp)
        (le_refl _)
    rw [if_pos rfl] at hiterC
    have hdrop : (t.preorder []).drop 1 = FieldTree.preorderList (c :: cs') [] 0 := by
      rw [ht, FieldTree.preorder_node, List.drop_one, List.tail_cons]
    have hrunEq : runIter t (beginStack t) (t.size - 1) =
        FieldTree.preorderList (c :: cs') [] 0 := by
      rw [hsz, hbegin, hrunC]
    refine ⟨by rw [hrunEq, hdrop], by rw [hsz, hbegin, hiterC]; rfl, ?_, ?_⟩
    · rw [hrunEq]
      refine (preorder_nodup (FieldTree.sizeList (c :: cs'))).2 (c :: cs') [] 0
        (le_refl _)
    · intro q hq hsome
      rw [hrunEq]
      have hmem : [] ++ q ∈ t.preorder [] := mem_preorder_of_subtree q t [] hsome
      rw [List.nil_append, ht, FieldTree.preorder_node] at hmem
      rcases List.mem_cons.mp hmem with rfl | hmem'
      · exact absurd rfl hq
      · exact hmem'

theorem schema_iterator_preorder_witness :
    runIter (FieldTree.node [.node [], .node [.node []]])
        (beginStack (FieldTree.node [.node [], .node [.node []]]))
        ((FieldTree.node [.node [], .node [.node []]]).size - 1) =
      ((FieldTree.node [.node [], .node [.node []]]).preorder []).drop 1 ∧
    ([1] : List Nat) ∈
      runIter (FieldTree.node [.node [], .node [.node []]])
        (beginStack (FieldTree.node [.node [], .node [.node []]]))
        ((FieldTree.node [.node [], .node [.node []]]).size - 1) :=
  ⟨(schema_iterator_preorder (FieldTree.node [.node [], .node [.node []]])).1,
   (schema_iterator_preorder (FieldTree.node [.node [], .node [.node []]])).2.2.2
     [1] (by decide) (by decide)⟩

/-- C6: for a cardinality bulk read of `count ≥ 1` entries within one cluster over
a monotone offset column, `ReadBulkImpl` sets `values[0]` to the collection size of
the entry at `firstIndex`, sets every later `values[k]` to the difference of the
consecutive offsets at entries `k` and `k-1` (whatever the page structure of the
column), and returns `kAllSet`. -/
theorem cardinality_bulk_read (col : OffsetColumn) (firstIndex count : Nat)
    (hm : ∀ i j, i ≤ j → col.offsets i ≤ col.offsets j)
    (hp : ∀ i, 1 ≤ col.pageLen i) (hc : 1 ≤ count) :
    (RCardinalityBulk.ReadBulkImpl col firstIndex count).2 = kAllSet ∧
    (RCardinalityBulk.ReadBulkImpl col firstIndex count).1.length = count ∧
    (RCardinalityBulk.ReadBulkImpl col firstIndex count).1.get? 0 =
      some (col.GetCollectionInfo firstIndex).2 ∧
    (∀ k, 0 < k → k < count →
      (RCardinalityBulk.ReadBulkImpl col firstIndex count).1.get? k =
        some (col.offsets (firstIndex + k) - col.offsets (firstIndex + k - 1))) := by
  have hstart : (col.GetCollectionInfo firstIndex).1 + (col.GetCollectionInfo firstIndex).2
      = col.offsets firstIndex := by
    unfold OffsetColumn.GetCollectionInfo
    by_cases h0 : firstIndex = 0
    · simp [h0]
    · have := hm (firstIndex - 1) firstIndex (by omega)
      simp only [if_neg h0]
      omega
  obtain ⟨hL, hKeep, hNew⟩ := RCardinalityBulk.loop_spec col firstIndex hp (count - 1)
    [(col.GetCollectionInfo firstIndex).2]
    ((col.GetCollectionInfo firstIndex).1 + (col.GetCollectionInfo firstIndex).2) 1
    rfl (le_refl 1) (by rw [hstart]; congr 1)
  have hr : RCardinalityBulk.ReadBulkImpl col firstIndex count =
      (RCardinalityBulk.loop col firstIndex [(col.GetCollectionInfo firstIndex).2]
        ((col.GetCollectionInfo firstIndex).1 + (col.GetCollectionInfo firstIndex).2) 1
        (count - 1), kAllSet) := rfl
  refine ⟨by rw [hr], ?_, ?_, fun k hk hk' => ?_⟩
  · rw [hr, hL]
    omega
  · rw [hr]
    exact hKeep 0 (by omega)
  · rw [hr]
    exact hNew k (by omega) (by omega)

theorem cardinality_bulk_read_witness :
    (RCardinalityBulk.ReadBulkImpl ⟨fun i => i, fun _ => 1⟩ 5 3).2 = kAllSet ∧
    (RCardinalityBulk.ReadBulkImpl ⟨fun i => i, fun _ => 1⟩ 5 3).1.length = 3 ∧
    (RCardinalityBulk.ReadBulkImpl ⟨fun i => i, fun _ => 1⟩ 5 3).1.get? 0 =
      some ((⟨fun i => i, fun _ => 1⟩ : OffsetColumn).GetCollectionInfo 5).2 ∧
    (∀ k, 0 < k → k < 3 →
      (RCardinalityBulk.ReadBulkImpl ⟨fun i => i, fun _ => 1⟩ 5 3).1.get? k =
        some ((5 + k) - (5 + k - 1))) :=
  cardinality_bulk_read ⟨fun i => i, fun _ => 1⟩ 5 3 (fun i j h => h)
    (fun _ => le_refl 1) (by omega)

/-- C7: the write-path column generation of a cardinality field always throws, so
connecting a cardinality field to a page sink always fails. -/
theorem cardinality_never_writable :
    cardinalityGenerateColumnsImpl =
      Except.error "Cardinality fields must only be used for reading" ∧
    connectPageSink cardinalityGenerateColumnsImpl =
      Except.error "Cardinality fields must only be used for reading" :=
  ⟨rfl, rfl⟩

/-- C8: `BindValue` returns a non-owning handle and only `GenerateValue` returns an
owning one; an owning handle destroys the pointed-to object exactly when it is
destroyed (also through move-assignment replacement), a non-owning handle never
destroys it, and a moved-from handle is left non-owning. -/
theorem value_handle_ownership (f p : Nat) (v dst src : RValue) :
    (RValue.BindValue f p).fIsOwning = false ∧
    (RValue.GenerateValue f p).fIsOwning = true ∧
    (v.fIsOwning = true → RValue.dtor v = [v.fObjPtr]) ∧
    (v.fIsOwning = false → RValue.dtor v = []) ∧
    (RValue.moveAssign dst src).2.2 = (if dst.fIsOwning then [dst.fObjPtr] else []) ∧
    (RValue.moveAssign dst src).2.1.fIsOwning = false ∧
    RValue.dtor (RValue.moveCtor src).2 = [] := by
  refine ⟨rfl, rfl, fun h => ?_, fun h => ?_, rfl, rfl, ?_⟩
  · simp [RValue.dtor, RValue.DestroyIfOwning, h]
  · simp [RValue.dtor, RValue.DestroyIfOwning, h]
  · simp [RValue.dtor, RValue.moveCtor, RValue.DestroyIfOwning]

theorem value_handle_ownership_witness :
    (RValue.BindValue 1 42).fIsOwning = false ∧
    RValue.dtor ⟨1, 42, true⟩ = [42] :=
  ⟨(value_handle_ownership 1 42 ⟨1, 42, true⟩ ⟨0, 0, false⟩ ⟨0, 0, false⟩).1,
   (value_handle_ownership 1 42 ⟨1, 42, true⟩ ⟨0, 0, false⟩ ⟨0, 0, false⟩).2.2.1 rfl⟩

/-- C9: for a bitset field of width `N`, `GetValueSize` returns exactly
`⌈N / bits-per-word⌉ · word-size`, the word being the machine word of `wordSize`
bytes. -/
theorem bitset_value_size (wordSize N : Nat) :
    RBitsetField.GetValueSize wordSize N =
      (N ⌈/⌉ RBitsetField.kBitsPerWord wordSize) * wordSize := by
  simp [RBitsetField.GetValueSize, Nat.ceilDiv_eq_add_pred_div, Nat.mul_comm]

/-- C10: the record constructor intersects the traits of the item fields: the
record carries the trivially-constructible (resp. trivially-destructible) trait
iff every item field carries it. -/
theorem record_traits_intersection (ts : List Nat) :
    (hasTrait (RRecordField.traits ts) kTraitTriviallyConstructible
       = ts.all fun t => hasTrait t kTraitTriviallyConstructible) ∧
    (hasTrait (RRecordField.traits ts) kTraitTriviallyDestructible
       = ts.all fun t => hasTrait t kTraitTriviallyDestructible) := by
  have h0 : RRecordField.initialTraits = 3 := rfl
  constructor
  · rw [hasTrait_triviallyConstructible, RRecordField.traits, foldl_land_testBit, h0]
    simp [hasTrait_triviallyConstructible, show Nat.testBit 3 0 = true from by decide]
  · rw [hasTrait_triviallyDestructible, RRecordField.traits, foldl_land_testBit, h0]
    simp [hasTrait_triviallyDestructible, show Nat.testBit 3 1 = true from by decide]

end RFieldEngine
